import Mathlib

/-!
Verification of the Last-Write-Wins (LWW) element-set CRDT from
`src/index.ts` (devshark/crdts-poc).

The TypeScript class `LastWriteWins<T>` keeps a `Map<string, ElementSet<T>>`
called `database`.  We embed the map as an insertion-ordered association
list with unique keys (the JavaScript `Map` invariant); `mapGet`, `mapSet`
and `mapDelete` mirror `Map.prototype.get` / `.set` / `.delete`.  Methods
that throw `KeyNotFoundError` are embedded with `Except KeyNotFoundError`.
-/

namespace LWW

/-- `ElementSet<T> = { value: T; timestamp: number }` from `src/index.ts`.
Timestamps are `number`s used only with `<` on integer values; we model
them as `Int`. -/
structure ElementSet (T : Type) where
  value : T
  timestamp : Int
deriving DecidableEq, Repr

/-- `KeyNotFoundError extends Error`, constructed from the offending key. -/
structure KeyNotFoundError where
  key : String
deriving DecidableEq, Repr

/-- The `database : Map<string, ElementSet<T>>` field of `LastWriteWins<T>`,
as an insertion-ordered association list. -/
abbrev LastWriteWins (T : Type) : Type := List (String × ElementSet T)

variable {T : Type}

/-- `Map.prototype.get`: first entry whose key matches, if any. -/
def mapGet : LastWriteWins T → String → Option (ElementSet T)
  | [], _ => none
  | (k, v) :: rest, key => if k = key then some v else mapGet rest key

/-- `Map.prototype.set`: update the existing entry in place (keeping
insertion order), or append a fresh one. -/
def mapSet : LastWriteWins T → String → ElementSet T → LastWriteWins T
  | [], key, value => [(key, value)]
  | (k, v) :: rest, key, value =>
      if k = key then (key, value) :: rest else (k, v) :: mapSet rest key value

/-- `Map.prototype.delete` (ignoring the returned boolean, which the source
discards). -/
def mapDelete (db : LastWriteWins T) (key : String) : LastWriteWins T :=
  db.filter (fun p => p.1 ≠ key)

/-- The keys of the database, in insertion order. -/
def keys (db : LastWriteWins T) : List String :=
  db.map Prod.fst

/-- `getSet(key)`: returns the `ElementSet<T>` of the key, throws a
`KeyNotFoundError` if the key does not exist. -/
def getSet (db : LastWriteWins T) (key : String) :
    Except KeyNotFoundError (ElementSet T) :=
  match mapGet db key with
  | none => Except.error (KeyNotFoundError.mk key)
  | some value => Except.ok value

/-- `resolveConflict(key, value)`: looks the key up again and keeps the
incoming value only when it is strictly newer; on ties the current value is
kept (the BIAS comment in the source). -/
def resolveConflict (db : LastWriteWins T) (key : String) (value : ElementSet T) :
    Except KeyNotFoundError (ElementSet T) :=
  match getSet db key with
  | Except.error e => Except.error e
  | Except.ok currentValue =>
      if currentValue.timestamp < value.timestamp then
        Except.ok value
      else
        Except.ok currentValue

/-- The `try` block of `set`: probe with `getSet`, resolve the conflict, and
write the winner back into the database. -/
def setBody (db : LastWriteWins T) (key : String) (value : ElementSet T) :
    Except KeyNotFoundError (LastWriteWins T) :=
  match getSet db key with
  | Except.error e => Except.error e
  | Except.ok _ =>
      match resolveConflict db key value with
      | Except.error e => Except.error e
      | Except.ok valueToKeep => Except.ok (mapSet db key valueToKeep)

/-- `set(key, value)`: run the `try` block; the `catch` clause handles
`KeyNotFoundError` by inserting the value directly.  (The only throwable
error in the block is a `KeyNotFoundError`, so the re-throw branch of the
`catch` is unreachable and the embedded error type makes that explicit.) -/
def set (db : LastWriteWins T) (key : String) (value : ElementSet T) :
    LastWriteWins T :=
  match setBody db key value with
  | Except.ok db2 => db2
  | Except.error _ => mapSet db key value

/-- `get(key)`: returns the value `T` of the key, throws a
`KeyNotFoundError` if the key does not exist. -/
def get (db : LastWriteWins T) (key : String) : Except KeyNotFoundError T :=
  match getSet db key with
  | Except.error e => Except.error e
  | Except.ok s => Except.ok s.value

/-- `remove(key)`: removes the key from the database. -/
def remove (db : LastWriteWins T) (key : String) : LastWriteWins T :=
  mapDelete db key

/-- `getElements()`: returns the database itself. -/
def getElements (db : LastWriteWins T) : LastWriteWins T :=
  db

/-- `merge(other)`: `for (const [key, value] of other.getElements()) this.set(key, value)`. -/
def merge (a b : LastWriteWins T) : LastWriteWins T :=
  (getElements b).foldl (fun acc p => set acc p.1 p.2) a

/-- `mergeAll(first, ...others)`: `others.reduce((acc, db) => acc.merge(db), first)`. -/
def mergeAll (first : LastWriteWins T) (others : List (LastWriteWins T)) :
    LastWriteWins T :=
  others.foldl (fun acc db => merge acc db) first

/-- Per-key resolution lifted to optional entries: `none` is an absent key,
and two present entries are resolved by the strictly-newer-wins rule with
the existing-entry tie bias. -/
def optResolve : Option (ElementSet T) → Option (ElementSet T) → Option (ElementSet T)
  | none, o => o
  | some e, none => some e
  | some e1, some e2 => if e1.timestamp < e2.timestamp then some e2 else some e1

/-- A store reached from the constructor (`new LastWriteWins()`, the empty
`Map`) by a sequence of `set(key, value)` calls, given as the list of their
arguments in call order. -/
def applyOps (ops : List (String × ElementSet T)) : LastWriteWins T :=
  ops.foldl (fun db p => set db p.1 p.2) []

end LWW

namespace LWW

variable {T : Type}

theorem mapGet_mapSet_self (db : LastWriteWins T) (key : String) (v : ElementSet T) :
    mapGet (mapSet db key v) key = some v := by
  induction db with
  | nil => simp [mapGet, mapSet]
  | cons hd tl ih =>
    obtain ⟨k, w⟩ := hd
    by_cases h : k = key
    · simp [mapGet, mapSet, h]
    · simp [mapGet, mapSet, h, ih]

theorem mapGet_mapSet_other (db : LastWriteWins T) (key k' : String)
    (v : ElementSet T) (h : k' ≠ key) :
    mapGet (mapSet db key v) k' = mapGet db k' := by
  induction db with
  | nil => simp [mapGet, mapSet, h.symm]
  | cons hd tl ih =>
    obtain ⟨k, w⟩ := hd
    by_cases hk : k = key
    · subst hk
      simp [mapGet, mapSet, h.symm]
    · simp only [mapSet, if_neg hk]
      by_cases hk' : k = k'
      · simp [mapGet, hk']
      · simp [mapGet, hk', ih]

theorem mapSet_eq_self (db : LastWriteWins T) (key : String) (v : ElementSet T)
    (h : mapGet db key = some v) : mapSet db key v = db := by
  induction db with
  | nil => simp [mapGet] at h
  | cons hd tl ih =>
    obtain ⟨k, w⟩ := hd
    by_cases hk : k = key
    · subst hk
      simp [mapGet] at h
      simp [mapSet, h]
    · simp [mapGet, hk] at h
      simp [mapSet, hk, ih h]

/-- Unfolding `set` at an absent key: the probe throws, the catch inserts. -/
theorem set_absent (db : LastWriteWins T) (key : String) (v : ElementSet T)
    (h : mapGet db key = none) : set db key v = mapSet db key v := by
  simp [set, setBody, getSet, h]

/-- Unfolding `set` at a present key: the winner of `resolveConflict` is
written back. -/
theorem set_present (db : LastWriteWins T) (key : String) (v e : ElementSet T)
    (h : mapGet db key = some e) :
    set db key v =
      mapSet db key (if e.timestamp < v.timestamp then v else e) := by
  by_cases hlt : e.timestamp < v.timestamp
  · simp [set, setBody, resolveConflict, getSet, h, hlt]
  · simp [set, setBody, resolveConflict, getSet, h, hlt]

/-- What `set` leaves at its own key, in one formula. -/
theorem mapGet_set_self (db : LastWriteWins T) (key : String) (v : ElementSet T) :
    mapGet (set db key v) key =
      some (match mapGet db key with
            | none => v
            | some e => if e.timestamp < v.timestamp then v else e) := by
  cases h : mapGet db key with
  | none => simp [set_absent db key v h, mapGet_mapSet_self]
  | some e => simp [set_present db key v e h, mapGet_mapSet_self]

/-- `set` never touches other keys. -/
theorem mapGet_set_other (db : LastWriteWins T) (key k' : String)
    (v : ElementSet T) (h : k' ≠ key) :
    mapGet (set db key v) k' = mapGet db k' := by
  cases hg : mapGet db key with
  | none => simp [set_absent db key v hg, mapGet_mapSet_other db key k' v h]
  | some e => simp [set_present db key v e hg, mapGet_mapSet_other db key k' _ h]

/-- C1: for a key holding `eOld`, `set` stores the incoming `eNew` exactly
when `eOld.timestamp < eNew.timestamp`, and keeps `eOld` in every other
case, including equal timestamps (existing entry wins on ties, regardless
of the values). -/
theorem set_existing_entry (db : LastWriteWins T) (key : String)
    (eOld eNew : ElementSet T) (h : mapGet db key = some eOld) :
    mapGet (set db key eNew) key =
      some (if eOld.timestamp < eNew.timestamp then eNew else eOld) := by
  simp [set_present db key eNew eOld h, mapGet_mapSet_self]

/-- Witness for C1: a store holding `"k" ↦ (0, 5)` receives `(1, 7)` (newer:
incoming wins) and, from the updated store, `(2, 7)` (tie: existing wins). -/
theorem set_existing_entry_witness :
    mapGet (set [("k", ElementSet.mk 0 (5 : Int))] "k" (ElementSet.mk 1 7)) "k"
      = some (if (5 : Int) < 7 then ElementSet.mk 1 7 else ElementSet.mk 0 5) ∧
    mapGet (set [("k", ElementSet.mk (1 : Nat) (7 : Int))] "k" (ElementSet.mk 2 7)) "k"
      = some (if (7 : Int) < 7 then ElementSet.mk 2 7 else ElementSet.mk 1 7) :=
  ⟨set_existing_entry [("k", ElementSet.mk 0 5)] "k" (ElementSet.mk 0 5)
      (ElementSet.mk 1 7) (by decide),
   set_existing_entry [("k", ElementSet.mk 1 7)] "k" (ElementSet.mk 1 7)
      (ElementSet.mk 2 7) (by decide)⟩

theorem merge_nil (a : LastWriteWins T) : merge a [] = a := rfl

theorem merge_cons (a : LastWriteWins T) (p : String × ElementSet T)
    (rest : LastWriteWins T) :
    merge a (p :: rest) = merge (set a p.1 p.2) rest := rfl

theorem keys_cons (p : String × ElementSet T) (tl : LastWriteWins T) :
    keys (p :: tl) = p.1 :: keys tl := rfl

theorem mapGet_eq_none_of_not_mem (db : LastWriteWins T) (key : String)
    (h : key ∉ keys db) : mapGet db key = none := by
  induction db with
  | nil => rfl
  | cons hd tl ih =>
    obtain ⟨k, w⟩ := hd
    rw [keys_cons, List.mem_cons, not_or] at h
    have h1 : k ≠ key := fun hk => h.1 hk.symm
    simp [mapGet, h1, ih h.2]

theorem mapGet_of_mem_nodup (db : LastWriteWins T) (k : String) (e : ElementSet T)
    (hnd : (keys db).Nodup) (hmem : (k, e) ∈ db) : mapGet db k = some e := by
  induction db with
  | nil => simp at hmem
  | cons hd tl ih =>
    obtain ⟨k', w⟩ := hd
    rw [keys_cons] at hnd
    have hnd' := List.nodup_cons.mp hnd
    rcases List.mem_cons.mp hmem with heq | htl
    · injection heq with h1 h2
      subst h1
      simp [mapGet, h2]
    · have hk : k' ≠ k := by
        intro hkk
        subst hkk
        exact hnd'.1 (List.mem_map.mpr ⟨(k', e), htl, rfl⟩)
      simp [mapGet, hk, ih hnd'.2 htl]

/-- C5: `set` is idempotent — applying the same `(key, value)` twice leaves
exactly the database that a single application leaves (the whole list, hence
the entry at `key` and the overall mapping). -/
theorem set_idem (db : LastWriteWins T) (key : String) (v : ElementSet T) :
    set (set db key v) key v = set db key v := by
  cases h : mapGet db key with
  | none =>
    rw [set_absent db key v h]
    have hget : mapGet (mapSet db key v) key = some v := mapGet_mapSet_self ..
    rw [set_present _ key v v hget]
    simp [mapSet_eq_self _ key v hget]
  | some e =>
    rw [set_present db key v e h]
    by_cases hlt : e.timestamp < v.timestamp
    · simp only [if_pos hlt]
      have hget : mapGet (mapSet db key v) key = some v := mapGet_mapSet_self ..
      rw [set_present _ key v v hget]
      simp [mapSet_eq_self _ key v hget]
    · simp only [if_neg hlt]
      have hget : mapGet (mapSet db key e) key = some e := mapGet_mapSet_self ..
      rw [set_present _ key v e hget]
      simp [hlt, mapSet_eq_self _ key e hget]

theorem merge_eq_self_of_sub (b : LastWriteWins T) :
    ∀ a : LastWriteWins T, (∀ p ∈ b, mapGet a p.1 = some p.2) → merge a b = a := by
  induction b with
  | nil => intro a _; rfl
  | cons hd rest ih =>
    intro a h
    obtain ⟨k, e⟩ := hd
    have hk : mapGet a k = some e := h (k, e) (List.mem_cons_self ..)
    have hset : set a k e = a := by
      rw [set_present a k e e hk]
      simp [mapSet_eq_self a k e hk]
    rw [merge_cons, hset]
    exact ih a (fun p hp => h p (List.mem_cons_of_mem _ hp))

/-- C6: self-merge is a no-op — for a store with the JavaScript-`Map`
key-uniqueness invariant, `merge(A, A)` returns `A`'s database unchanged
(so the observable key-to-entry mapping is unchanged), and it is a total
function, so it terminates. -/
theorem merge_self (a : LastWriteWins T) (hnd : (keys a).Nodup) :
    merge a a = a :=
  merge_eq_self_of_sub a a (fun p hp => mapGet_of_mem_nodup a p.1 p.2 hnd (by simpa using hp))

/-- Witness for C6 at a concrete two-key store. -/
theorem merge_self_witness :
    merge [("a", ElementSet.mk (1 : Nat) 5), ("b", ElementSet.mk 2 9)]
          [("a", ElementSet.mk (1 : Nat) 5), ("b", ElementSet.mk 2 9)]
      = [("a", ElementSet.mk (1 : Nat) 5), ("b", ElementSet.mk 2 9)] :=
  merge_self [("a", ElementSet.mk (1 : Nat) 5), ("b", ElementSet.mk 2 9)] (by decide)

theorem mapGet_merge_eq (a b : LastWriteWins T) (k : String)
    (hnd : (keys b).Nodup) :
    mapGet (merge a b) k =
      match mapGet a k, mapGet b k with
      | some ea, some eb =>
          if ea.timestamp < eb.timestamp then some eb else some ea
      | some ea, none => some ea
      | none, some eb => some eb
      | none, none => none := by
  induction b generalizing a with
  | nil => cases h : mapGet a k <;> simp [merge_nil, h, mapGet]
  | cons hd rest ih =>
    obtain ⟨k0, e0⟩ := hd
    rw [keys_cons] at hnd
    have hnd' := List.nodup_cons.mp hnd
    rw [merge_cons]
    by_cases hk : k0 = k
    · subst hk
      have hrest : mapGet rest k0 = none :=
        mapGet_eq_none_of_not_mem rest k0 hnd'.1
      rw [ih (set a k0 e0) hnd'.2, mapGet_set_self a k0 e0, hrest]
      cases h : mapGet a k0 with
      | none => simp [mapGet, h]
      | some ea => simp [mapGet, h, apply_ite some]
    · rw [ih (set a k0 e0) hnd'.2, mapGet_set_other a k0 k e0 (fun hkk => hk hkk.symm)]
      simp [mapGet, hk]

/-- C2: after `merge(A, B)` (with `B` satisfying the `Map` key-uniqueness
invariant), the entry at any key `k` is: the strictly-newer of the two
entries when both stores hold `k`, `A`'s pre-merge entry on a timestamp tie,
and the unique entry when only one store holds `k`. -/
theorem merge_mapGet (a b : LastWriteWins T) (k : String)
    (hnd : (keys b).Nodup) :
    mapGet (merge a b) k =
      match mapGet a k, mapGet b k with
      | some ea, some eb =>
          if ea.timestamp < eb.timestamp then some eb else some ea
      | some ea, none => some ea
      | none, some eb => some eb
      | none, none => none :=
  mapGet_merge_eq a b k hnd

/-- Witness for C2: both-present (newer wins), both-present tie (A's entry
wins), and one-sided keys, on concrete stores. -/
theorem merge_mapGet_witness :
    mapGet (merge [("x", ElementSet.mk (1 : Nat) 5), ("y", ElementSet.mk 2 3)]
                  [("x", ElementSet.mk 9 8), ("z", ElementSet.mk 7 1)]) "x"
      = some (ElementSet.mk 9 8) ∧
    mapGet (merge [("x", ElementSet.mk (1 : Nat) 5)] [("x", ElementSet.mk 9 5)]) "x"
      = some (ElementSet.mk 1 5) ∧
    mapGet (merge [("x", ElementSet.mk (1 : Nat) 5), ("y", ElementSet.mk 2 3)]
                  [("x", ElementSet.mk 9 8), ("z", ElementSet.mk 7 1)]) "y"
      = some (ElementSet.mk 2 3) ∧
    mapGet (merge [("x", ElementSet.mk (1 : Nat) 5), ("y", ElementSet.mk 2 3)]
                  [("x", ElementSet.mk 9 8), ("z", ElementSet.mk 7 1)]) "z"
      = some (ElementSet.mk 7 1) := by
  refine ⟨?_, ?_, ?_, ?_⟩
  · rw [merge_mapGet _ _ "x" (by decide)]; decide
  · rw [merge_mapGet _ _ "x" (by decide)]; decide
  · rw [merge_mapGet _ _ "y" (by decide)]; decide
  · rw [merge_mapGet _ _ "z" (by decide)]; decide

/-- C3 counterexample: two stores holding key `"k"` with equal timestamps
and different values.  `merge(A, B)` keeps A's value `0`, while starting
from B and merging A in keeps B's value `1` — the resulting key-to-value
mappings differ, so merge is not semantically commutative for every pair of
stores. -/
theorem merge_comm_counterexample :
    (mapGet (merge [("k", ElementSet.mk (0 : Nat) 5)] [("k", ElementSet.mk 1 5)]) "k").map
        ElementSet.value = some 0 ∧
    (mapGet (merge [("k", ElementSet.mk (1 : Nat) 5)] [("k", ElementSet.mk 0 5)]) "k").map
        ElementSet.value = some 1 := by
  decide

/-- C3 (amended): merge is semantically commutative in content for every
pair of stores in which no key holds equal-timestamp entries with different
values in the two stores — under that proviso (and the `Map` key-uniqueness
invariant) the entry mapping of `merge(A, B)` coincides with that of
`merge(B, A)` at every key, hence so does the key-to-value mapping. -/
theorem merge_comm_of_no_conflicting_ties (a b : LastWriteWins T) (k : String)
    (hna : (keys a).Nodup) (hnb : (keys b).Nodup)
    (htie : ∀ k' ea eb, mapGet a k' = some ea → mapGet b k' = some eb →
            ea.timestamp = eb.timestamp → ea.value = eb.value) :
    mapGet (merge a b) k = mapGet (merge b a) k := by
  rw [mapGet_merge_eq a b k hnb, mapGet_merge_eq b a k hna]
  cases ha : mapGet a k with
  | none => cases hb : mapGet b k <;> rfl
  | some ea =>
    cases hb : mapGet b k with
    | none => rfl
    | some eb =>
      rcases lt_trichotomy ea.timestamp eb.timestamp with h | h | h
      · simp [h, not_lt.mpr (le_of_lt h)]
      · have hv := htie k ea eb ha hb h
        have heq : ea = eb := by
          cases ea; cases eb; simp_all
        simp [heq]
      · simp [h, not_lt.mpr (le_of_lt h)]

/-- Witness for the amended C3, on concrete single-key stores with disjoint
keys (so the no-conflicting-ties hypothesis holds vacuously). -/
theorem merge_comm_of_no_conflicting_ties_witness :
    mapGet (merge [("p", ElementSet.mk (1 : Nat) 1)] [("q", ElementSet.mk 2 2)]) "p"
      = mapGet (merge [("q", ElementSet.mk (2 : Nat) 2)] [("p", ElementSet.mk 1 1)]) "p" :=
  merge_comm_of_no_conflicting_ties _ _ "p" (by decide) (by decide)
    (by
      intro k' ea eb hea heb hts
      by_cases hp : "p" = k'
      · rw [← hp] at heb
        rw [show mapGet [("q", ElementSet.mk (2 : Nat) 2)] "p" = none from by decide] at heb
        exact Option.noConfusion heb
      · have hnone : mapGet [("p", ElementSet.mk (1 : Nat) 1)] k' = none := by
          simp [mapGet, hp]
        rw [hnone] at hea
        exact Option.noConfusion hea)

/-- `optResolve e _` keeps `e` whenever the other side is absent, equal, or
strictly older. -/
theorem optResolve_keep_left (e : ElementSet T) (o : Option (ElementSet T))
    (h : ∀ e', o = some e' → e' = e ∨ e'.timestamp < e.timestamp) :
    optResolve (some e) o = some e := by
  cases o with
  | none => rfl
  | some e2 =>
    rcases h e2 rfl with rfl | hlt
    · simp [optResolve]
    · simp [optResolve, not_lt.mpr (le_of_lt hlt)]

/-- `optResolve _ e` yields `e` whenever the other side is absent, equal, or
strictly older (on the equal case the tie bias keeps the left entry, which
is then `e` itself). -/
theorem optResolve_keep_right (e : ElementSet T) (o : Option (ElementSet T))
    (h : ∀ e', o = some e' → e' = e ∨ e'.timestamp < e.timestamp) :
    optResolve o (some e) = some e := by
  cases o with
  | none => rfl
  | some e1 =>
    rcases h e1 rfl with rfl | hlt
    · simp [optResolve]
    · simp [optResolve, hlt]

/-- `optResolve` never synthesizes an entry: its result comes from one of
its arguments. -/
theorem optResolve_mem (o1 o2 : Option (ElementSet T)) (e : ElementSet T)
    (h : optResolve o1 o2 = some e) : o1 = some e ∨ o2 = some e := by
  cases o1 with
  | none => exact Or.inr h
  | some e1 =>
    cases o2 with
    | none => exact Or.inl h
    | some e2 =>
      simp only [optResolve] at h
      by_cases hlt : e1.timestamp < e2.timestamp
      · rw [if_pos hlt] at h
        exact Or.inr h
      · rw [if_neg hlt] at h
        exact Or.inl h

/-- Folding `optResolve` over three optional entries returns the entry that
strictly dominates every other present entry. -/
theorem optResolve3_max (oa ob oc : Option (ElementSet T)) (e : ElementSet T)
    (hmem : oa = some e ∨ ob = some e ∨ oc = some e)
    (hmax : ∀ e', oa = some e' ∨ ob = some e' ∨ oc = some e' →
            e' = e ∨ e'.timestamp < e.timestamp) :
    optResolve (optResolve oa ob) oc = some e := by
  rcases hmem with ha | hb | hc
  · rw [ha]
    rw [optResolve_keep_left e ob (fun e' he' => hmax e' (Or.inr (Or.inl he')))]
    exact optResolve_keep_left e oc (fun e' he' => hmax e' (Or.inr (Or.inr he')))
  · rw [hb]
    rw [optResolve_keep_right e oa (fun e' he' => hmax e' (Or.inl he'))]
    exact optResolve_keep_left e oc (fun e' he' => hmax e' (Or.inr (Or.inr he')))
  · rw [hc]
    exact optResolve_keep_right e (optResolve oa ob) (fun e' he' => by
      rcases optResolve_mem oa ob e' he' with h | h
      · exact hmax e' (Or.inl h)
      · exact hmax e' (Or.inr (Or.inl h)))

theorem merge_mapGet_optResolve (a b : LastWriteWins T) (k : String)
    (hnd : (keys b).Nodup) :
    mapGet (merge a b) k = optResolve (mapGet a k) (mapGet b k) := by
  rw [mapGet_merge_eq a b k hnd]
  cases mapGet a k <;> cases mapGet b k <;> rfl

theorem mergeAll_three_mapGet (x y z : LastWriteWins T) (k : String)
    (hny : (keys y).Nodup) (hnz : (keys z).Nodup) :
    mapGet (mergeAll x [y, z]) k =
      optResolve (optResolve (mapGet x k) (mapGet y k)) (mapGet z k) := by
  show mapGet (merge (merge x y) z) k = _
  rw [merge_mapGet_optResolve _ z k hnz, merge_mapGet_optResolve x y k hny]

/-- C4: for three stores (each with the `Map` key-uniqueness invariant) and
a key whose present entries are strictly dominated by a single entry `e`
with the maximum timestamp — in particular whenever all timestamps are
pairwise distinct — `mergeAll` yields `e` at that key under every one of
the six argument orders. -/
theorem mergeAll_three_max (a b c : LastWriteWins T) (k : String) (e : ElementSet T)
    (hna : (keys a).Nodup) (hnb : (keys b).Nodup) (hnc : (keys c).Nodup)
    (hmem : mapGet a k = some e ∨ mapGet b k = some e ∨ mapGet c k = some e)
    (hmax : ∀ e', mapGet a k = some e' ∨ mapGet b k = some e' ∨ mapGet c k = some e' →
            e' = e ∨ e'.timestamp < e.timestamp) :
    mapGet (mergeAll a [b, c]) k = some e ∧
    mapGet (mergeAll a [c, b]) k = some e ∧
    mapGet (mergeAll b [a, c]) k = some e ∧
    mapGet (mergeAll b [c, a]) k = some e ∧
    mapGet (mergeAll c [a, b]) k = some e ∧
    mapGet (mergeAll c [b, a]) k = some e := by
  refine ⟨?_, ?_, ?_, ?_, ?_, ?_⟩
  · rw [mergeAll_three_mapGet a b c k hnb hnc]
    exact optResolve3_max _ _ _ e hmem hmax
  · rw [mergeAll_three_mapGet a c b k hnc hnb]
    exact optResolve3_max _ _ _ e (by tauto) (fun e' h => hmax e' (by tauto))
  · rw [mergeAll_three_mapGet b a c k hna hnc]
    exact optResolve3_max _ _ _ e (by tauto) (fun e' h => hmax e' (by tauto))
  · rw [mergeAll_three_mapGet b c a k hnc hna]
    exact optResolve3_max _ _ _ e (by tauto) (fun e' h => hmax e' (by tauto))
  · rw [mergeAll_three_mapGet c a b k hna hnb]
    exact optResolve3_max _ _ _ e (by tauto) (fun e' h => hmax e' (by tauto))
  · rw [mergeAll_three_mapGet c b a k hnb hna]
    exact optResolve3_max _ _ _ e (by tauto) (fun e' h => hmax e' (by tauto))

/-- Witness for C4: the spec's scenario — three stores holding `"x"` at
timestamps 100, 300, 200; every argument order of `mergeAll` yields s2's
entry (value 2, timestamp 300). -/
theorem mergeAll_three_max_witness :
    mapGet (mergeAll [("x", ElementSet.mk (1 : Nat) 100)]
        [[("x", ElementSet.mk 2 300)], [("x", ElementSet.mk 3 200)]]) "x"
      = some (ElementSet.mk 2 300) ∧
    mapGet (mergeAll [("x", ElementSet.mk (1 : Nat) 100)]
        [[("x", ElementSet.mk 3 200)], [("x", ElementSet.mk 2 300)]]) "x"
      = some (ElementSet.mk 2 300) ∧
    mapGet (mergeAll [("x", ElementSet.mk (2 : Nat) 300)]
        [[("x", ElementSet.mk 1 100)], [("x", ElementSet.mk 3 200)]]) "x"
      = some (ElementSet.mk 2 300) ∧
    mapGet (mergeAll [("x", ElementSet.mk (2 : Nat) 300)]
        [[("x", ElementSet.mk 3 200)], [("x", ElementSet.mk 1 100)]]) "x"
      = some (ElementSet.mk 2 300) ∧
    mapGet (mergeAll [("x", ElementSet.mk (3 : Nat) 200)]
        [[("x", ElementSet.mk 1 100)], [("x", ElementSet.mk 2 300)]]) "x"
      = some (ElementSet.mk 2 300) ∧
    mapGet (mergeAll [("x", ElementSet.mk (3 : Nat) 200)]
        [[("x", ElementSet.mk 2 300)], [("x", ElementSet.mk 1 100)]]) "x"
      = some (ElementSet.mk 2 300) :=
  mergeAll_three_max [("x", ElementSet.mk (1 : Nat) 100)] [("x", ElementSet.mk 2 300)]
    [("x", ElementSet.mk 3 200)] "x" (ElementSet.mk 2 300)
    (by decide) (by decide) (by decide)
    (Or.inr (Or.inl (by decide)))
    (by
      intro e' h
      rcases h with h | h | h
      · rw [show mapGet [("x", ElementSet.mk (1 : Nat) 100)] "x"
              = some (ElementSet.mk 1 100) from by decide] at h
        injection h with h'
        subst h'
        exact Or.inr (by decide)
      · rw [show mapGet [("x", ElementSet.mk (2 : Nat) 300)] "x"
              = some (ElementSet.mk 2 300) from by decide] at h
        injection h with h'
        subst h'
        exact Or.inl rfl
      · rw [show mapGet [("x", ElementSet.mk (3 : Nat) 200)] "x"
              = some (ElementSet.mk 3 200) from by decide] at h
        injection h with h'
        subst h'
        exact Or.inr (by decide))

/-- C7: the read path raises `KeyNotFound` carrying the offending key
exactly when the key is absent, and succeeds exactly on present keys; `set`
is total: at a fresh key the internal probe's `KeyNotFoundError` is caught
and turned into a plain insert (never leaked), and the `try` block's error
case always results in the direct insert.  (`set`, `remove`, `merge` and
`mergeAll` are total Lean functions into stores, so they fail on no
input.) -/
theorem error_contract (db : LastWriteWins T) (k : String) (v : ElementSet T) :
    (getSet db k = Except.error (KeyNotFoundError.mk k) ↔ mapGet db k = none) ∧
    (∀ e, getSet db k = Except.ok e ↔ mapGet db k = some e) ∧
    (get db k = Except.error (KeyNotFoundError.mk k) ↔ mapGet db k = none) ∧
    (∀ w, get db k = Except.ok w ↔ ∃ e, mapGet db k = some e ∧ e.value = w) ∧
    (mapGet db k = none → set db k v = mapSet db k v) ∧
    (∀ err, setBody db k v = Except.error err → set db k v = mapSet db k v) := by
  cases h : mapGet db k with
  | none =>
    refine ⟨by simp [getSet, h], fun e => by simp [getSet, h],
      by simp [get, getSet, h], fun w => by simp [get, getSet, h],
      fun _ => set_absent db k v h, fun err _ => set_absent db k v h⟩
  | some e0 =>
    refine ⟨by simp [getSet, h], fun e => by simp [getSet, h],
      by simp [get, getSet, h], fun w => by simp [get, getSet, h, eq_comm],
      fun hn => Option.noConfusion hn, fun err herr => ?_⟩
    exfalso
    by_cases hlt : e0.timestamp < v.timestamp <;>
      simp [setBody, getSet, resolveConflict, h, hlt] at herr

/-- Witness for C7: on `{"b" ↦ (5, 1)}`, reading the absent key `"a"`
errors with that key, and a fresh-key `set` is the plain insert. -/
theorem error_contract_witness :
    getSet [("b", ElementSet.mk (5 : Nat) 1)] "a"
      = Except.error (KeyNotFoundError.mk "a") ∧
    set [("b", ElementSet.mk (5 : Nat) 1)] "a" (ElementSet.mk 7 2)
      = mapSet [("b", ElementSet.mk (5 : Nat) 1)] "a" (ElementSet.mk 7 2) := by
  have h := error_contract [("b", ElementSet.mk (5 : Nat) 1)] "a" (ElementSet.mk 7 2)
  exact ⟨h.1.mpr (by decide), h.2.2.2.2.1 (by decide)⟩

theorem mapGet_cons (k0 : String) (v : ElementSet T) (tl : LastWriteWins T)
    (key : String) :
    mapGet ((k0, v) :: tl) key = if k0 = key then some v else mapGet tl key := rfl

theorem mapDelete_cons (k0 : String) (v : ElementSet T) (tl : LastWriteWins T)
    (k : String) :
    mapDelete ((k0, v) :: tl) k =
      if k0 = k then mapDelete tl k else (k0, v) :: mapDelete tl k := by
  by_cases h : k0 = k <;> simp [mapDelete, List.filter_cons, h]

theorem mapGet_mapDelete_self (db : LastWriteWins T) (k : String) :
    mapGet (mapDelete db k) k = none := by
  induction db with
  | nil => rfl
  | cons hd tl ih =>
    obtain ⟨k0, v⟩ := hd
    rw [mapDelete_cons]
    by_cases h : k0 = k
    · rw [if_pos h]; exact ih
    · rw [if_neg h, mapGet_cons, if_neg h]; exact ih

theorem mapGet_mapDelete_other (db : LastWriteWins T) (k k' : String)
    (hk : k' ≠ k) : mapGet (mapDelete db k) k' = mapGet db k' := by
  induction db with
  | nil => rfl
  | cons hd tl ih =>
    obtain ⟨k0, v⟩ := hd
    rw [mapDelete_cons, mapGet_cons]
    by_cases h : k0 = k
    · have hne : k0 ≠ k' := fun hc => hk (hc.symm.trans h)
      rw [if_pos h, if_neg hne]
      exact ih
    · rw [if_neg h, mapGet_cons]
      by_cases h' : k0 = k'
      · rw [if_pos h', if_pos h']
      · rw [if_neg h', if_neg h']
        exact ih

theorem mapDelete_absent (db : LastWriteWins T) (k : String)
    (h : mapGet db k = none) : mapDelete db k = db := by
  induction db with
  | nil => rfl
  | cons hd tl ih =>
    obtain ⟨k0, v⟩ := hd
    rw [mapGet_cons] at h
    by_cases hk : k0 = k
    · rw [if_pos hk] at h; exact Option.noConfusion h
    · rw [if_neg hk] at h
      rw [mapDelete_cons, if_neg hk, ih h]

/-- C8: `remove(k)` deletes the entry at `k` when present and is a no-op
(the very same database, raising nothing) when `k` is absent; afterwards
`k` reads like a never-set key — `get(k)` raises `KeyNotFound` carrying
`k` — and every other key's entry is untouched. -/
theorem remove_spec (db : LastWriteWins T) (k k' : String) :
    mapGet (remove db k) k = none ∧
    get (remove db k) k = Except.error (KeyNotFoundError.mk k) ∧
    (k' ≠ k → mapGet (remove db k) k' = mapGet db k') ∧
    (mapGet db k = none → remove db k = db) := by
  refine ⟨mapGet_mapDelete_self db k, ?_, fun hk => mapGet_mapDelete_other db k k' hk,
    fun h => mapDelete_absent db k h⟩
  simp [get, getSet, remove, mapGet_mapDelete_self db k]

/-- Witness for C8 on concrete stores: delete of a present key, reads after
delete, an untouched sibling key, and a no-op delete of an absent key. -/
theorem remove_spec_witness :
    mapGet (remove [("k", ElementSet.mk (1 : Nat) 5)] "k") "k" = none ∧
    get (remove [("k", ElementSet.mk (1 : Nat) 5)] "k") "k"
      = Except.error (KeyNotFoundError.mk "k") ∧
    mapGet (remove [("k", ElementSet.mk (1 : Nat) 5), ("j", ElementSet.mk 2 6)] "k") "j"
      = mapGet [("k", ElementSet.mk (1 : Nat) 5), ("j", ElementSet.mk 2 6)] "j" ∧
    remove [("k", ElementSet.mk (1 : Nat) 5)] "z" = [("k", ElementSet.mk (1 : Nat) 5)] :=
  ⟨(remove_spec [("k", ElementSet.mk (1 : Nat) 5)] "k" "k").1,
   (remove_spec [("k", ElementSet.mk (1 : Nat) 5)] "k" "k").2.1,
   (remove_spec [("k", ElementSet.mk (1 : Nat) 5), ("j", ElementSet.mk 2 6)] "k" "j").2.2.1
     (by decide),
   (remove_spec [("k", ElementSet.mk (1 : Nat) 5)] "z" "z").2.2.2 (by decide)⟩

theorem set_timestamp_mono (db : LastWriteWins T) (key k : String)
    (v e : ElementSet T) (h : mapGet db k = some e) :
    ∃ e', mapGet (set db key v) k = some e' ∧ e.timestamp ≤ e'.timestamp := by
  by_cases hk : k = key
  · subst hk
    refine ⟨if e.timestamp < v.timestamp then v else e, ?_, ?_⟩
    · rw [set_present db k v e h, mapGet_mapSet_self]
    · by_cases hlt : e.timestamp < v.timestamp
      · rw [if_pos hlt]; exact le_of_lt hlt
      · rw [if_neg hlt]
  · exact ⟨e, by rw [mapGet_set_other db key k v hk]; exact h, le_refl _⟩

theorem merge_timestamp_mono (b : LastWriteWins T) :
    ∀ (a : LastWriteWins T) (k : String) (e : ElementSet T), mapGet a k = some e →
      ∃ e', mapGet (merge a b) k = some e' ∧ e.timestamp ≤ e'.timestamp := by
  induction b with
  | nil => intro a k e h; exact ⟨e, h, le_refl _⟩
  | cons hd rest ih =>
    intro a k e h
    obtain ⟨e', h', hle⟩ := set_timestamp_mono a hd.1 k hd.2 e h
    obtain ⟨e'', h'', hle'⟩ := ih (set a hd.1 hd.2) k e' h'
    exact ⟨e'', by rw [merge_cons]; exact h'', le_trans hle hle'⟩

theorem mergeAll_timestamp_mono (others : List (LastWriteWins T)) :
    ∀ (first : LastWriteWins T) (k : String) (e : ElementSet T),
      mapGet first k = some e →
      ∃ e', mapGet (mergeAll first others) k = some e' ∧ e.timestamp ≤ e'.timestamp := by
  induction others with
  | nil => intro f k e h; exact ⟨e, h, le_refl _⟩
  | cons hd rest ih =>
    intro f k e h
    obtain ⟨e', h', hle⟩ := merge_timestamp_mono hd f k e h
    obtain ⟨e'', h'', hle'⟩ := ih (merge f hd) k e' h'
    exact ⟨e'', h'', le_trans hle hle'⟩

/-- C9: per-key timestamp monotonicity — once a key holds an entry, a `set`
(at any key), a `merge`, or a `mergeAll` leaves at that key an entry whose
timestamp is greater than or equal to the one held before, so no such
operation ever replaces a key's entry with a strictly older-timestamped
one. -/
theorem timestamp_monotone :
    (∀ (db : LastWriteWins T) (key k : String) (v e : ElementSet T),
        mapGet db k = some e →
        ∃ e', mapGet (set db key v) k = some e' ∧ e.timestamp ≤ e'.timestamp) ∧
    (∀ (a b : LastWriteWins T) (k : String) (e : ElementSet T),
        mapGet a k = some e →
        ∃ e', mapGet (merge a b) k = some e' ∧ e.timestamp ≤ e'.timestamp) ∧
    (∀ (first : LastWriteWins T) (others : List (LastWriteWins T)) (k : String)
        (e : ElementSet T), mapGet first k = some e →
        ∃ e', mapGet (mergeAll first others) k = some e' ∧ e.timestamp ≤ e'.timestamp) :=
  ⟨fun db key k v e h => set_timestamp_mono db key k v e h,
   fun a b k e h => merge_timestamp_mono b a k e h,
   fun first others k e h => mergeAll_timestamp_mono others first k e h⟩

/-- Witness for C9: a stale `set`, a stale `merge`, and a stale `mergeAll`
against a key holding timestamp 9 all leave a timestamp at least 9. -/
theorem timestamp_monotone_witness :
    (∃ e', mapGet (set [("k", ElementSet.mk (1 : Nat) 9)] "k" (ElementSet.mk 2 3)) "k"
        = some e' ∧ (9 : Int) ≤ e'.timestamp) ∧
    (∃ e', mapGet (merge [("k", ElementSet.mk (1 : Nat) 9)] [("k", ElementSet.mk 2 3)]) "k"
        = some e' ∧ (9 : Int) ≤ e'.timestamp) ∧
    (∃ e', mapGet (mergeAll [("k", ElementSet.mk (1 : Nat) 9)]
        [[("k", ElementSet.mk 2 3)], [("k", ElementSet.mk 3 4)]]) "k"
        = some e' ∧ (9 : Int) ≤ e'.timestamp) :=
  ⟨timestamp_monotone.1 [("k", ElementSet.mk (1 : Nat) 9)] "k" "k" (ElementSet.mk 2 3)
     (ElementSet.mk 1 9) (by decide),
   timestamp_monotone.2.1 [("k", ElementSet.mk (1 : Nat) 9)] [("k", ElementSet.mk 2 3)]
     "k" (ElementSet.mk 1 9) (by decide),
   timestamp_monotone.2.2 [("k", ElementSet.mk (1 : Nat) 9)]
     [[("k", ElementSet.mk 2 3)], [("k", ElementSet.mk 3 4)]] "k"
     (ElementSet.mk 1 9) (by decide)⟩

theorem set_mapGet_origin (db : LastWriteWins T) (key k : String)
    (v w : ElementSet T) (h : mapGet (set db key v) k = some w) :
    (k = key ∧ w = v) ∨ mapGet db k = some w := by
  by_cases hk : k = key
  · subst hk
    cases hg : mapGet db k with
    | none =>
      rw [set_absent db k v hg, mapGet_mapSet_self] at h
      injection h with h'
      exact Or.inl ⟨rfl, h'.symm⟩
    | some e =>
      rw [set_present db k v e hg, mapGet_mapSet_self] at h
      injection h with h'
      by_cases hlt : e.timestamp < v.timestamp
      · rw [if_pos hlt] at h'
        exact Or.inl ⟨rfl, h'.symm⟩
      · rw [if_neg hlt] at h'
        exact Or.inr (congrArg some h')
  · rw [mapGet_set_other db key k v hk] at h
    exact Or.inr h

theorem resolveConflict_present (db : LastWriteWins T) (key : String)
    (v e : ElementSet T) (h : mapGet db key = some e) :
    resolveConflict db key v
      = Except.ok (if e.timestamp < v.timestamp then v else e) := by
  by_cases hlt : e.timestamp < v.timestamp <;>
    simp [resolveConflict, getSet, h, hlt]

theorem applyOps_origin_aux (ops : List (String × ElementSet T)) :
    ∀ (db : LastWriteWins T) (k : String) (w : ElementSet T),
      mapGet (ops.foldl (fun acc p => set acc p.1 p.2) db) k = some w →
      (k, w) ∈ ops ∨ mapGet db k = some w := by
  induction ops with
  | nil => intro db k w h; exact Or.inr h
  | cons hd rest ih =>
    intro db k w h
    obtain ⟨k0, v0⟩ := hd
    rcases ih (set db k0 v0) k w h with hmem | hset
    · exact Or.inl (List.mem_cons_of_mem _ hmem)
    · rcases set_mapGet_origin db k0 k v0 w hset with ⟨rfl, rfl⟩ | hdb
      · exact Or.inl (List.mem_cons_self ..)
      · exact Or.inr hdb

/-- C10: no synthesis — `resolveConflict` only ever returns one of its two
input entries whole, and in a store built from the constructor by any
sequence of `set` calls, the entry stored at a key is exactly one of the
`ElementSet` arguments previously passed to `set` for that key (so a stored
value and its timestamp always originate from one single write). -/
theorem no_synthesis :
    (∀ (db : LastWriteWins T) (key : String) (v w : ElementSet T),
        resolveConflict db key v = Except.ok w → w = v ∨ mapGet db key = some w) ∧
    (∀ (ops : List (String × ElementSet T)) (k : String) (w : ElementSet T),
        mapGet (applyOps ops) k = some w → (k, w) ∈ ops) := by
  constructor
  · intro db key v w h
    cases hg : mapGet db key with
    | none => simp [resolveConflict, getSet, hg] at h
    | some e =>
      rw [resolveConflict_present db key v e hg] at h
      injection h with h'
      by_cases hlt : e.timestamp < v.timestamp
      · rw [if_pos hlt] at h'
        exact Or.inl h'.symm
      · rw [if_neg hlt] at h'
        exact Or.inr (congrArg some h')
  · intro ops k w h
    rcases applyOps_origin_aux ops [] k w h with hmem | hnil
    · exact hmem
    · exact Option.noConfusion hnil

/-- Witness for C10: the resolved entry at a newer write is the incoming
argument itself, and a store built by two `set` calls holds at `"k"` one of
the two arguments passed for `"k"`. -/
theorem no_synthesis_witness :
    ((ElementSet.mk (2 : Nat) 9) = ElementSet.mk 2 9 ∨
      mapGet [("k", ElementSet.mk (1 : Nat) 5)] "k" = some (ElementSet.mk 2 9)) ∧
    ("k", ElementSet.mk (2 : Nat) 9)
      ∈ [("k", ElementSet.mk (1 : Nat) 5), ("k", ElementSet.mk 2 9)] :=
  ⟨no_synthesis.1 [("k", ElementSet.mk (1 : Nat) 5)] "k" (ElementSet.mk 2 9)
     (ElementSet.mk 2 9) rfl,
   no_synthesis.2 [("k", ElementSet.mk (1 : Nat) 5), ("k", ElementSet.mk 2 9)] "k"
     (ElementSet.mk 2 9) (by decide)⟩

end LWW
